import Mathlib

/-!
# Day 01: bounded top-N tracker and group-sum scanner

A shallow embedding of `src/day01/process.cpp`.

* `TopN` embeds the class template `TopN<T>` at `T = calories_t`, the 32-bit `int`,
  as the program uses it: `Consider` compares integers, `Sum` adds them in `int`
  arithmetic.
* `getlines`, `stoi` and `process_list` embed the scanning loop of `process_list`:
  `std::stoi` rejects a value outside the `int` range, and the running sum is an `int`.
* Every `int` addition is reduced into the `int` range by `wrapInt` (signed overflow
  has no defined result in C++; the embedding takes the two's complement one).
* `atoi`, `parse_args` and `main` embed the command line: `argc` is the length of
  `argv`, and the file system is a map from a path to the content of the file when it
  can be opened.
* `closedGroups` and `groupSums` word the groups of the specification, to be compared
  with the values the loop submits.
-/

namespace Day01

/-! ## The 32-bit `int` -/

/-- The value `INT_MIN` of the 32-bit `int`. -/
def INT_MIN : Int := -2147483648

/-- The value `INT_MAX` of the 32-bit `int`. -/
def INT_MAX : Int := 2147483647

/-- Reduction of an integer into the range of the 32-bit two's complement `int`:
the value of an `int` addition whose exact result is `x`. -/
def wrapInt (x : Int) : Int :=
  (x + 2147483648) % 4294967296 - 2147483648

/-! ## The tracker `TopN<T>` at `T = int` -/

/-- The two data members of `TopN<T>`: the list `items` and the constant `default_item`.
The program instantiates the template at `calories_t`, the 32-bit `int`; the items are
integers, compared exactly and added in `int` arithmetic. -/
structure TopN where
  items : List Int
  default_item : Int
  deriving DecidableEq

namespace TopN

/-- The member initialisers of the constructor: `items(n, init_item)`,
`default_item(init_item)`. -/
def init (n : Nat) (init_item : Int) : TopN :=
  { items := List.replicate n init_item, default_item := init_item }

/-- The constructor `TopN(n, init_item)`: after the member initialisers it runs
`assert(!items.empty())`; a failed assertion is `none`. -/
def construct (n : Nat) (init_item : Int := 0) : Option TopN :=
  let t := init n init_item
  if t.items.isEmpty then none else some t

/-- The loop of `Consider` up to its `break`: walk the list from the front; at the first
item that is `< candidate` insert the candidate before it (`items.insert(it, candidate)`)
and stop. `none` when the iterator reaches `items.end()` without an insertion. -/
def insertAtFirstSmaller (candidate : Int) : List Int → Option (List Int)
  | [] => none
  | x :: rest =>
    if x < candidate then some (candidate :: x :: rest)
    else (insertAtFirstSmaller candidate rest).map (fun r => x :: r)

/-- The method `Consider`: when the loop inserted the candidate, `items.pop_back()` drops
the last item; otherwise the tracker is untouched. -/
def Consider (t : TopN) (candidate : Int) : TopN :=
  match insertAtFirstSmaller candidate t.items with
  | some inserted => { t with items := inserted.dropLast }
  | none => t

/-- The method `Sum`: `std::accumulate(items.begin(), items.end(), default_item)`, a left
fold that starts from `default_item` and adds one item at a time; the program uses
`TopN<calories_t>`, so every addition is an `int` addition. -/
def Sum (t : TopN) : Int :=
  t.items.foldl (fun acc x => wrapInt (acc + x)) t.default_item

/-- A run of `Consider` calls, one per candidate, in order. -/
def considerAll (t : TopN) (candidates : List Int) : TopN :=
  candidates.foldl Consider t

/-- The tracker states a program can reach: a successful construction followed by any
number of `Consider` calls. -/
inductive Reachable : TopN → Prop
  | construct {n : Nat} {z : Int} {t : TopN} : construct n z = some t → Reachable t
  | consider {t : TopN} (c : Int) : Reachable t → Reachable (t.Consider c)

end TopN

/-! ## The scanner `process_list` -/

/-- The loop `while (getline(input_file, line))` seen as the list of lines it yields.
`cur` holds the characters of the line being read, last one first. A newline ends the
line; at end of input a `getline` that extracted no character fails and ends the loop,
one that extracted some yields them as the last line. -/
def getlinesFrom (cur : List Char) : List Char → List (List Char)
  | [] => if cur.isEmpty then [] else [cur.reverse]
  | c :: rest =>
    if c = '\n' then cur.reverse :: getlinesFrom [] rest
    else getlinesFrom (c :: cur) rest

/-- All the lines `getline` yields on a stream holding `content`. -/
def getlines (content : List Char) : List (List Char) :=
  getlinesFrom [] content

/-- The white space `strtol` skips in the C locale. -/
def isspace (c : Char) : Bool :=
  c = ' ' || c = '\t' || c = '\n' || c = '\x0b' || c = '\x0c' || c = '\r'

/-- The value of a run of decimal digits. -/
def digitsValue (ds : List Char) : Nat :=
  ds.foldl (fun acc d => 10 * acc + (d.toNat - 48)) 0

/-- The library call `std::stoi(line)`: skip white space, read an optional sign and the
longest run of decimal digits, ignore what follows. `none` stands for the exception it
throws: `invalid_argument` when there is no digit, `out_of_range` when the value does not
fit an `int`. -/
def stoi (line : List Char) : Option Int :=
  let s := line.dropWhile isspace
  let negative : Bool := s.head? = some '-'
  let s := if s.head? = some '-' || s.head? = some '+' then s.tail else s
  let ds := s.takeWhile Char.isDigit
  if ds.isEmpty then none
  else
    let v : Int := if negative then -(digitsValue ds : Int) else (digitsValue ds : Int)
    if INT_MIN ≤ v ∧ v ≤ INT_MAX then some v else none

/-- The body of the `while` loop of `process_list`, run over the lines still to come:
a non-empty line is parsed and added to `calories`, an empty line submits `calories` to
the tracker and resets it. `none` when `std::stoi` throws. -/
def processLines (top_n_calories : TopN) (calories : Int) :
    List (List Char) → Option TopN
  | [] => some top_n_calories
  | line :: rest =>
    if !line.isEmpty then
      match stoi line with
      | some v => processLines top_n_calories (wrapInt (calories + v)) rest
      | none => none
    else
      processLines (top_n_calories.Consider calories) 0 rest

/-- The function `process_list(input_file, n)` on a stream holding `input_file`: construct
`top_n_calories(n)` with the default `init_item` zero, run the loop, return the tracker.
`none` when the constructor assertion fails or `std::stoi` throws. -/
def process_list (input_file : List Char) (n : Nat) : Option TopN :=
  match TopN.construct n with
  | some top_n_calories => processLines top_n_calories 0 (getlines input_file)
  | none => none

/-- Descending sort of a list of integers. -/
def sortDesc (l : List Int) : List Int :=
  l.insertionSort (fun a b => a ≥ b)

/-- The arguments of the `Consider` calls that the loop of `process_list` makes on the
lines still to come, in call order: the same walk as `processLines`, recording
`calories` at every empty line. `none` when `std::stoi` throws. -/
def consideredValues (calories : Int) : List (List Char) → Option (List Int)
  | [] => some []
  | line :: rest =>
    if !line.isEmpty then
      match stoi line with
      | some v => consideredValues (wrapInt (calories + v)) rest
      | none => none
    else
      (consideredValues 0 rest).map (fun vs => calories :: vs)

/-! ## The command line: `parse_args` and `main` -/

/-- The groups that an empty line closes, in input order: each is the run of non-empty
lines since the previous empty line, or since the start of the input. The lines after
the last empty line belong to no closed group. -/
def closedGroups : List (List Char) → List (List (List Char))
  | [] => []
  | line :: rest =>
    if line.isEmpty then [] :: closedGroups rest
    else
      match closedGroups rest with
      | [] => []
      | g :: gs => (line :: g) :: gs

/-- The integer values of the lines of a group. -/
def groupValues (g : List (List Char)) : List Int :=
  g.filterMap stoi

/-- The sum of a list of values in `int` arithmetic, starting from `acc`. -/
def intSumFrom (acc : Int) (vs : List Int) : Int :=
  vs.foldl (fun a v => wrapInt (a + v)) acc

/-- The exact sums of the closed groups of an input. -/
def groupSums (lines : List (List Char)) : List Int :=
  (closedGroups lines).map (fun g => (groupValues g).sum)

/-! ## Auxiliary facts about the insertion loop -/

/-- The retained list after `Consider`, as a function of the list before it. -/
def considerItems (c : Int) (l : List Int) : List Int :=
  match TopN.insertAtFirstSmaller c l with
  | some inserted => inserted.dropLast
  | none => l

theorem Consider_items (t : TopN) (c : Int) :
    (t.Consider c).items = considerItems c t.items := by
  unfold TopN.Consider considerItems
  cases TopN.insertAtFirstSmaller c t.items <;> rfl

theorem Consider_default_item (t : TopN) (c : Int) :
    (t.Consider c).default_item = t.default_item := by
  unfold TopN.Consider
  cases TopN.insertAtFirstSmaller c t.items <;> rfl

theorem Consider_eq (t : TopN) (c : Int) :
    t.Consider c = { items := considerItems c t.items, default_item := t.default_item } := by
  cases t with
  | mk items d =>
    unfold TopN.Consider considerItems
    cases TopN.insertAtFirstSmaller c items <;> rfl

theorem insertAtFirstSmaller_length (c : Int) :
    ∀ (l r : List Int), TopN.insertAtFirstSmaller c l = some r → r.length = l.length + 1
  | [], r, h => by simp [TopN.insertAtFirstSmaller] at h
  | x :: rest, r, h => by
    unfold TopN.insertAtFirstSmaller at h
    split at h
    · cases h; simp
    · cases hr : TopN.insertAtFirstSmaller c rest with
      | none => simp [hr] at h
      | some r1 =>
        simp [hr] at h
        subst h
        simp [insertAtFirstSmaller_length c rest r1 hr]

theorem insertAtFirstSmaller_eq_none (c : Int) :
    ∀ l : List Int, TopN.insertAtFirstSmaller c l = none ↔ ∀ x ∈ l, c ≤ x
  | [] => by simp [TopN.insertAtFirstSmaller]
  | x :: rest => by
    unfold TopN.insertAtFirstSmaller
    by_cases hx : x < c
    · simp [hx]
    · simp [hx, insertAtFirstSmaller_eq_none c rest, not_lt.mp hx]

theorem considerItems_nil (c : Int) : considerItems c [] = [] := rfl

theorem considerItems_cons (c x : Int) (rest : List Int) :
    considerItems c (x :: rest) =
      if x < c then c :: (x :: rest).dropLast else x :: considerItems c rest := by
  unfold considerItems
  by_cases hx : x < c
  · simp [TopN.insertAtFirstSmaller, hx]
  · cases hr : TopN.insertAtFirstSmaller c rest with
    | none => simp [TopN.insertAtFirstSmaller, hx, hr]
    | some r1 =>
      have hlen := insertAtFirstSmaller_length c rest r1 hr
      cases r1 with
      | nil => simp at hlen
      | cons y ys => simp [TopN.insertAtFirstSmaller, hx, hr]

theorem considerItems_length (c : Int) : ∀ l : List Int, (considerItems c l).length = l.length
  | [] => rfl
  | x :: rest => by
    rw [considerItems_cons]
    split
    · simp
    · simp [considerItems_length c rest]

theorem considerItems_eq_self_iff (c : Int) :
    ∀ l : List Int, considerItems c l = l ↔ ∀ x ∈ l, c ≤ x
  | [] => by simp [considerItems_nil]
  | x :: rest => by
    rw [considerItems_cons]
    by_cases hx : x < c
    · simp only [hx, if_true]
      constructor
      · intro h
        have : c = x := by
          have := congrArg List.head? h
          simpa using this
        omega
      · intro h
        have := h x (List.mem_cons_self _ _)
        omega
    · simp [hx, considerItems_eq_self_iff c rest, not_lt.mp hx]

/-! ## The insertion loop on a list in descending order -/

theorem sorted_replicate (n : Nat) (z : Int) :
    (List.replicate n z).Sorted (fun a b => a ≥ b) := by
  induction n with
  | zero => simp
  | succ k ih =>
    rw [List.replicate_succ, List.sorted_cons]
    refine ⟨?_, ih⟩
    intro b hb
    rw [List.eq_of_mem_replicate hb]

theorem orderedInsert_of_forall_ge (c : Int) :
    ∀ l : List Int, (∀ y ∈ l, c ≥ y) → l.orderedInsert (fun a b => a ≥ b) c = c :: l
  | [], _ => rfl
  | y :: ys, h => by
    have hy : c ≥ y := h y (List.mem_cons_self _ _)
    simp [List.orderedInsert, hy]

/-- On a list in descending order `Consider` is the sorted insertion followed by a cut
back to the old length. -/
theorem considerItems_sorted (c : Int) :
    ∀ l : List Int, l.Sorted (fun a b => a ≥ b) →
      considerItems c l = (l.orderedInsert (fun a b => a ≥ b) c).take l.length
  | [], _ => by simp [considerItems_nil]
  | x :: rest, hs => by
    have hrest : rest.Sorted (fun a b => a ≥ b) := hs.of_cons
    have hx : ∀ y ∈ rest, x ≥ y := List.rel_of_sorted_cons hs
    rw [considerItems_cons]
    by_cases h1 : x < c
    · have h2 : c ≥ x := le_of_lt h1
      simp [h1, List.orderedInsert, h2, List.dropLast_eq_take]
    · by_cases h2 : c ≥ x
      · have hcx : c = x := le_antisymm (not_lt.mp h1) h2
        subst hcx
        rw [considerItems_sorted c rest hrest, orderedInsert_of_forall_ge c rest hx]
        simp [List.orderedInsert]
      · rw [considerItems_sorted c rest hrest]
        simp [h1, List.orderedInsert, h2]

theorem considerItems_sorted_dropLast (c : Int) (l : List Int)
    (hs : l.Sorted (fun a b => a ≥ b)) :
    considerItems c l = (l.orderedInsert (fun a b => a ≥ b) c).dropLast := by
  rw [considerItems_sorted c l hs, List.dropLast_eq_take, List.orderedInsert_length]
  simp

theorem sorted_take {l : List Int} (n : Nat) (hs : l.Sorted (fun a b => a ≥ b)) :
    (l.take n).Sorted (fun a b => a ≥ b) :=
  List.Pairwise.sublist (List.take_sublist n l) hs

theorem considerItems_keeps_sorted (c : Int) (l : List Int)
    (hs : l.Sorted (fun a b => a ≥ b)) :
    (considerItems c l).Sorted (fun a b => a ≥ b) := by
  rw [considerItems_sorted c l hs]
  exact sorted_take _ (hs.orderedInsert c l)

theorem sorted_sortDesc (l : List Int) : (sortDesc l).Sorted (fun a b => a ≥ b) :=
  List.sorted_insertionSort _ l

theorem perm_sortDesc (l : List Int) : (sortDesc l).Perm l :=
  List.perm_insertionSort _ l

theorem sortDesc_eq_of_perm {l1 l2 : List Int} (h : l1.Perm l2) : sortDesc l1 = sortDesc l2 :=
  List.eq_of_perm_of_sorted
    (((perm_sortDesc l1).trans h).trans (perm_sortDesc l2).symm)
    (sorted_sortDesc l1) (sorted_sortDesc l2)

theorem sortDesc_eq_self {l : List Int} (hs : l.Sorted (fun a b => a ≥ b)) : sortDesc l = l :=
  List.Sorted.insertionSort_eq hs

theorem sortDesc_cons (a : Int) (l : List Int) :
    sortDesc (a :: l) = (sortDesc l).orderedInsert (fun a b => a ≥ b) a := rfl

/-- The first `n` items of a sorted insertion depend on the first `n` items only. -/
theorem take_orderedInsert_take (a : Int) :
    ∀ (n : Nat) (u : List Int),
      ((u.take n).orderedInsert (fun a b => a ≥ b) a).take n =
        (u.orderedInsert (fun a b => a ≥ b) a).take n
  | 0, _ => by simp
  | _ + 1, [] => by simp
  | n + 1, b :: u => by
    by_cases hab : a ≥ b
    · simp only [List.take_succ_cons, List.orderedInsert, hab, if_true]
      cases n with
      | zero => simp
      | succ m => simp [List.take_take]
    · simp only [List.take_succ_cons, List.orderedInsert, hab, if_false]
      rw [take_orderedInsert_take a n u]

/-- Cutting a descending list to its first `n` items before sorting it together with
other values does not change the first `n` items of the result. -/
theorem take_sortDesc_append_take (n : Nat) (s : List Int)
    (hs : s.Sorted (fun a b => a ≥ b)) :
    ∀ A : List Int, (sortDesc (A ++ s.take n)).take n = (sortDesc (A ++ s)).take n
  | [] => by
    simp only [List.nil_append]
    rw [sortDesc_eq_self (sorted_take n hs), sortDesc_eq_self hs, List.take_take]
    simp
  | a :: A => by
    simp only [List.cons_append, sortDesc_cons]
    rw [← take_orderedInsert_take a n (sortDesc (A ++ s.take n)),
      take_sortDesc_append_take n s hs A, take_orderedInsert_take]

/-- The retained list after a run of `Consider` calls on a descending list `l`: the
first `l.length` items of the descending sort of the candidates together with `l`. -/
theorem considerAll_items_sorted :
    ∀ (cs : List Int) (l : List Int) (z : Int), l.Sorted (fun a b => a ≥ b) →
      (TopN.considerAll { items := l, default_item := z } cs).items =
        (sortDesc (cs ++ l)).take l.length
  | [], l, z, hs => by
    simp [TopN.considerAll, sortDesc_eq_self hs]
  | c :: cs, l, z, hs => by
    have hstep : TopN.considerAll { items := l, default_item := z } (c :: cs) =
        TopN.considerAll { items := considerItems c l, default_item := z } cs := by
      simp [TopN.considerAll, Consider_eq]
    rw [hstep, considerAll_items_sorted cs _ z (considerItems_keeps_sorted c l hs),
      considerItems_length, considerItems_sorted c l hs,
      take_sortDesc_append_take _ _ (hs.orderedInsert c l)]
    congr 1
    apply sortDesc_eq_of_perm
    have h1 : (l.orderedInsert (fun a b => a ≥ b) c).Perm (c :: l) :=
      List.perm_orderedInsert _ c l
    exact (List.Perm.append_left cs h1).trans List.perm_middle

theorem considerAll_default_item (t : TopN) (cs : List Int) :
    (TopN.considerAll t cs).default_item = t.default_item := by
  induction cs generalizing t with
  | nil => rfl
  | cons c cs ih =>
    have : TopN.considerAll t (c :: cs) = TopN.considerAll (t.Consider c) cs := rfl
    rw [this, ih, Consider_default_item]

/-! ## Construction, reachable states and `Sum` -/

theorem construct_eq_some (N : Nat) (z : Int) (hN : 1 ≤ N) :
    TopN.construct N z = some (TopN.init N z) := by
  obtain ⟨k, rfl⟩ : ∃ k, N = k + 1 := ⟨N - 1, by omega⟩
  simp [TopN.construct, TopN.init, List.replicate_succ]

theorem construct_some_iff (N : Nat) (z : Int) (t : TopN) :
    TopN.construct N z = some t ↔ 1 ≤ N ∧ t = TopN.init N z := by
  cases N with
  | zero => simp [TopN.construct, TopN.init]
  | succ k =>
    rw [construct_eq_some (k + 1) z (by omega)]
    constructor
    · intro h
      exact ⟨by omega, (Option.some.inj h).symm⟩
    · rintro ⟨_, rfl⟩
      rfl

theorem considerAll_init_items (N : Nat) (z : Int) (cs : List Int) :
    (TopN.considerAll (TopN.init N z) cs).items =
      (sortDesc (cs ++ List.replicate N z)).take N := by
  have h := considerAll_items_sorted cs (List.replicate N z) z (sorted_replicate N z)
  simpa [TopN.init] using h

theorem reachable_sorted {t : TopN} (ht : t.Reachable) :
    t.items.Sorted (fun a b => a ≥ b) := by
  induction ht with
  | construct h =>
    rw [construct_some_iff] at h
    rw [h.2]
    exact sorted_replicate _ _
  | consider c _ ih =>
    rw [Consider_items]
    exact considerItems_keeps_sorted c _ ih

theorem reachable_ne_nil {t : TopN} (ht : t.Reachable) : t.items ≠ [] := by
  induction ht with
  | @construct n z t h =>
    rw [construct_some_iff] at h
    obtain ⟨k, rfl⟩ : ∃ k, n = k + 1 := ⟨n - 1, by omega⟩
    rw [h.2]
    simp [TopN.init, List.replicate_succ]
  | @consider t c _ ih =>
    intro h0
    apply ih
    have hlen : (t.Consider c).items.length = t.items.length := by
      rw [Consider_items, considerItems_length]
    rw [h0] at hlen
    exact List.length_eq_zero.mp hlen.symm

theorem Consider_eq_self_iff (t : TopN) (c : Int) :
    t.Consider c = t ↔ ∀ x ∈ t.items, c ≤ x := by
  rw [← considerItems_eq_self_iff, Consider_eq]
  cases t with
  | mk items d => simp

theorem getLast?_le_of_sorted :
    ∀ (l : List Int) (m : Int), l.Sorted (fun a b => a ≥ b) → l.getLast? = some m →
      ∀ x ∈ l, m ≤ x
  | [], _, _, h => by simp at h
  | [a], m, _, h => by
    simp at h
    subst h
    simp
  | a :: b :: rest, m, hs, h => by
    have hrest := getLast?_le_of_sorted (b :: rest) m hs.of_cons (by simpa using h)
    intro x hx
    rcases List.mem_cons.mp hx with rfl | hx
    · have hb : x ≥ b := List.rel_of_sorted_cons hs b (List.mem_cons_self _ _)
      exact le_trans (hrest b (List.mem_cons_self _ _)) hb
    · exact hrest x hx

theorem wrapInt_eq_self {x : Int} (h1 : INT_MIN ≤ x) (h2 : x ≤ INT_MAX) : wrapInt x = x := by
  unfold INT_MIN at h1
  unfold INT_MAX at h2
  unfold wrapInt
  omega

theorem wrapInt_wrapInt_add (a b : Int) : wrapInt (wrapInt a + b) = wrapInt (a + b) := by
  unfold wrapInt
  omega

theorem wrapInt_le_self {x : Int} (h : INT_MIN ≤ x) : wrapInt x ≤ x := by
  unfold INT_MIN at h
  unfold wrapInt
  omega

theorem wrapInt_zero : wrapInt 0 = 0 := by decide

/-- Over a list that is not empty the `int` sum is the exact sum reduced into the `int`
range. -/
theorem intSumFrom_eq_wrapInt :
    ∀ (vs : List Int) (acc : Int), vs ≠ [] → intSumFrom acc vs = wrapInt (acc + vs.sum)
  | [], _, h => absurd rfl h
  | [v], acc, _ => by simp [intSumFrom]
  | v :: w :: vs, acc, _ => by
    have hstep : intSumFrom acc (v :: w :: vs) = intSumFrom (wrapInt (acc + v)) (w :: vs) :=
      rfl
    rw [hstep, intSumFrom_eq_wrapInt (w :: vs) _ (by simp), wrapInt_wrapInt_add]
    simp [add_assoc]

theorem Sum_eq_intSumFrom (t : TopN) : t.Sum = intSumFrom t.default_item t.items := rfl

/-- The method `Sum` on a tracker with at least one slot: the neutral value plus the sum
of the slots, reduced into the `int` range. -/
theorem Sum_eq_wrapInt (t : TopN) (h : t.items ≠ []) :
    t.Sum = wrapInt (t.default_item + t.items.sum) :=
  intSumFrom_eq_wrapInt t.items t.default_item h

theorem considerAll_init_length (N : Nat) (z : Int) (cs : List Int) :
    (TopN.considerAll (TopN.init N z) cs).items.length = N := by
  rw [considerAll_init_items, List.length_take, sortDesc, List.length_insertionSort]
  simp

theorem considerAll_init_ne_nil (N : Nat) (z : Int) (cs : List Int) (hN : 1 ≤ N) :
    (TopN.considerAll (TopN.init N z) cs).items ≠ [] := by
  intro h
  have := considerAll_init_length N z cs
  rw [h] at this
  simp at this
  omega

/-- The method `Sum` after any run of `Consider` calls on a constructed tracker. -/
theorem Sum_considerAll_init (N : Nat) (z : Int) (cs : List Int) (hN : 1 ≤ N) :
    (TopN.considerAll (TopN.init N z) cs).Sum =
      wrapInt (z + (TopN.considerAll (TopN.init N z) cs).items.sum) := by
  rw [Sum_eq_wrapInt _ (considerAll_init_ne_nil N z cs hN), considerAll_default_item]
  rfl

theorem sortDesc_append_replicate_zero (cs : List Int) (n : Nat) (h : ∀ c ∈ cs, 0 ≤ c) :
    sortDesc (cs ++ List.replicate n 0) = sortDesc cs ++ List.replicate n 0 := by
  apply List.eq_of_perm_of_sorted (r := fun a b : Int => a ≥ b)
  · exact (perm_sortDesc _).trans (List.Perm.append_right _ (perm_sortDesc cs).symm)
  · exact sorted_sortDesc _
  · unfold List.Sorted
    rw [List.pairwise_append]
    refine ⟨sorted_sortDesc cs, sorted_replicate n 0, ?_⟩
    intro a ha b hb
    rw [List.eq_of_mem_replicate hb]
    exact h a ((perm_sortDesc cs).mem_iff.mp ha)

theorem sum_take_append_replicate_zero (A : List Int) (n k : Nat) :
    ((A ++ List.replicate k 0).take n).sum = (A.take n).sum := by
  rw [List.take_append_eq_append_take, List.sum_append, List.take_replicate]
  simp

/-- With neutral zero and non-negative candidates the retained slots sum to the sum of
the `N` largest candidates. -/
theorem sum_items_considerAll_nonneg (N : Nat) (cs : List Int) (h : ∀ c ∈ cs, 0 ≤ c) :
    (TopN.considerAll (TopN.init N 0) cs).items.sum = ((sortDesc cs).take N).sum := by
  rw [considerAll_init_items, sortDesc_append_replicate_zero cs N h,
    sum_take_append_replicate_zero]

/-- The retained list depends on the candidates through their `N` largest only. -/
theorem considerAll_init_items_of_largest (N : Nat) (z : Int) (cs : List Int) :
    (TopN.considerAll (TopN.init N z) cs).items =
      (sortDesc ((sortDesc cs).take N ++ List.replicate N z)).take N := by
  have h1 : sortDesc (cs ++ List.replicate N z) =
      sortDesc (List.replicate N z ++ sortDesc cs) :=
    sortDesc_eq_of_perm
      (List.perm_append_comm.trans (List.Perm.append_left _ (perm_sortDesc cs).symm))
  have h2 : sortDesc ((sortDesc cs).take N ++ List.replicate N z) =
      sortDesc (List.replicate N z ++ (sortDesc cs).take N) :=
    sortDesc_eq_of_perm List.perm_append_comm
  rw [considerAll_init_items, h1, h2,
    take_sortDesc_append_take N (sortDesc cs) (sorted_sortDesc cs)]

/-- The non-negative items of a list sum to at least the sum of the list, and to exactly
that sum when no item is negative. -/
theorem sum_filter_nonneg :
    ∀ T : List Int,
      T.sum ≤ (T.filter (fun x => decide (0 ≤ x))).sum ∧
      ((T.filter (fun x => decide (0 ≤ x))).sum ≤ T.sum ↔ ∀ x ∈ T, 0 ≤ x)
  | [] => by simp
  | x :: T => by
    obtain ⟨ih1, ih2⟩ := sum_filter_nonneg T
    by_cases hx : 0 ≤ x
    · simp only [List.filter_cons, hx, decide_True, if_true, List.sum_cons,
        List.mem_cons, forall_eq_or_imp, true_and]
      constructor
      · omega
      · rw [← ih2]
        constructor <;> intro h <;> omega
    · simp only [List.filter_cons, hx, decide_False, Bool.false_eq_true, if_false,
        List.sum_cons, List.mem_cons, forall_eq_or_imp, false_and, iff_false]
      constructor
      · omega
      · omega

/-- The `N` largest of at most `N` values together with `N` zeros sum to the sum of the
non-negative values. -/
theorem sum_take_sortDesc_append_zeros (N : Nat) (T : List Int) (hT : T.length ≤ N) :
    ((sortDesc (T ++ List.replicate N 0)).take N).sum =
      (T.filter (fun x => decide (0 ≤ x))).sum := by
  have hsorted : sortDesc (T ++ List.replicate N 0) =
      sortDesc (T.filter (fun x => decide (0 ≤ x))) ++
        (List.replicate N 0 ++ sortDesc (T.filter (fun x => !decide (0 ≤ x)))) := by
    apply List.eq_of_perm_of_sorted (r := fun a b : Int => a ≥ b)
    · refine (perm_sortDesc _).trans ?_
      have hsplit : (T.filter (fun x => decide (0 ≤ x)) ++
          T.filter (fun x => !decide (0 ≤ x))).Perm T := List.filter_append_perm _ T
      have h1 : (T ++ List.replicate N 0).Perm
          (T.filter (fun x => decide (0 ≤ x)) ++
            (T.filter (fun x => !decide (0 ≤ x)) ++ List.replicate N 0)) := by
        rw [← List.append_assoc]
        exact List.Perm.append_right _ hsplit.symm
      refine h1.trans (List.Perm.append ?_ ?_)
      · exact (perm_sortDesc _).symm
      · exact List.perm_append_comm.trans (List.Perm.append_left _ (perm_sortDesc _).symm)
    · exact sorted_sortDesc _
    · unfold List.Sorted
      rw [List.pairwise_append]
      refine ⟨sorted_sortDesc _, ?_, ?_⟩
      · rw [List.pairwise_append]
        refine ⟨sorted_replicate N 0, sorted_sortDesc _, ?_⟩
        intro a ha b hb
        rw [List.eq_of_mem_replicate ha]
        have hb2 := (perm_sortDesc _).mem_iff.mp hb
        have := (List.mem_filter.mp hb2).2
        simp at this
        omega
      · intro a ha b hb
        have ha2 := (perm_sortDesc _).mem_iff.mp ha
        have ha3 := (List.mem_filter.mp ha2).2
        simp at ha3
        rcases List.mem_append.mp hb with hb | hb
        · rw [List.eq_of_mem_replicate hb]
          exact ha3
        · have hb2 := (perm_sortDesc _).mem_iff.mp hb
          have hb3 := (List.mem_filter.mp hb2).2
          simp at hb3
          show a ≥ b
          omega
  have hP : (sortDesc (T.filter (fun x => decide (0 ≤ x)))).length ≤ N := by
    rw [sortDesc, List.length_insertionSort]
    exact le_trans (List.length_filter_le _ _) hT
  rw [hsorted, List.take_append_eq_append_take, List.take_of_length_le hP, List.sum_append,
    List.take_append_of_le_length (by simp), List.take_replicate, (perm_sortDesc _).sum_eq]
  simp

/-- With neutral zero the retained slots sum to the sum of the non-negative ones among
the `N` largest candidates. -/
theorem sum_items_considerAll_zero (N : Nat) (cs : List Int) :
    (TopN.considerAll (TopN.init N 0) cs).items.sum =
      (((sortDesc cs).take N).filter (fun x => decide (0 ≤ x))).sum := by
  rw [considerAll_init_items_of_largest,
    sum_take_sortDesc_append_zeros N _ (List.length_take_le _ _)]

theorem sum_filter_nonneg_nonneg (T : List Int) :
    0 ≤ (T.filter (fun x => decide (0 ≤ x))).sum := by
  apply List.sum_nonneg
  intro x hx
  simpa using (List.mem_filter.mp hx).2

/-! ## The scanner at end of input -/

/-- C1, evaluated on the scenario file `"3\n4\n\n8\n"`: `getline` yields the lines
`3`, `4`, the empty line and `8`; the loop submits the group sum `7` at the empty line and
ends with `8` still in `calories`, so the reported sum is `7` for `N = 1` and for `N = 2`
(the claim says `8` and `15`). -/
theorem process_list_scenario_reports_seven :
    getlines "3\n4\n\n8\n".toList = ["3".toList, "4".toList, [], "8".toList] ∧
    (process_list "3\n4\n\n8\n".toList 1).map TopN.Sum = some 7 ∧
    (process_list "3\n4\n\n8\n".toList 2).map TopN.Sum = some 7 := by
  decide

/-- C2, evaluated on the file `"5\n6\n"`, which has no trailing blank line: the loop
ends with `11` in `calories` and never calls `Consider`, so `process_list` returns the
freshly constructed tracker and the reported sum is `0` (the claim says `11`). -/
theorem process_list_no_flush_at_end_of_input :
    process_list "5\n6\n".toList 1 = TopN.construct 1 ∧
    (process_list "5\n6\n".toList 1).map TopN.Sum = some 0 := by
  decide

/-! ## The tracker -/

/-- C3: for every capacity `N ≥ 1`, neutral value `z` and list of candidates `cs`, the
constructor succeeds and the retained list after considering `cs` in order is the first
`N` items of the descending sort of `cs` together with `N` copies of `z`. -/
theorem considerAll_items_eq_take_sortDesc (N : Nat) (z : Int) (cs : List Int)
    (hN : 1 ≤ N) :
    ∃ t0, TopN.construct N z = some t0 ∧
      (TopN.considerAll t0 cs).items = (sortDesc (cs ++ List.replicate N z)).take N :=
  ⟨TopN.init N z, construct_eq_some N z hN, considerAll_init_items N z cs⟩

/-- C3 at `N = 2`, `z = 0` and the candidates `5, 3, 5`. -/
theorem considerAll_items_eq_take_sortDesc_witness :
    1 ≤ 2 ∧ ∃ t0, TopN.construct 2 0 = some t0 ∧
      (TopN.considerAll t0 [5, 3, 5]).items =
        (sortDesc ([5, 3, 5] ++ List.replicate 2 0)).take 2 :=
  ⟨by decide, considerAll_items_eq_take_sortDesc 2 0 [5, 3, 5] (by decide)⟩

/-- C4: for every capacity `N ≥ 1` the constructed tracker holds exactly `N` items in
non-increasing order, every `Consider` preserves both facts, and so they hold after any
sequence of `Consider` calls. -/
theorem tracker_invariant (N : Nat) (z : Int) (hN : 1 ≤ N) :
    ∃ t0, TopN.construct N z = some t0 ∧
      (t0.items.length = N ∧ t0.items.Sorted (fun a b => a ≥ b)) ∧
      (∀ (t : TopN) (c : Int),
        t.items.length = N ∧ t.items.Sorted (fun a b => a ≥ b) →
        (t.Consider c).items.length = N ∧
          (t.Consider c).items.Sorted (fun a b => a ≥ b)) ∧
      (∀ cs : List Int,
        (TopN.considerAll t0 cs).items.length = N ∧
          (TopN.considerAll t0 cs).items.Sorted (fun a b => a ≥ b)) := by
  refine ⟨TopN.init N z, construct_eq_some N z hN, ?_, ?_, ?_⟩
  · exact ⟨by simp [TopN.init], sorted_replicate N z⟩
  · rintro t c ⟨hlen, hs⟩
    rw [Consider_items]
    exact ⟨by rw [considerItems_length, hlen], considerItems_keeps_sorted c _ hs⟩
  · intro cs
    rw [considerAll_init_items]
    refine ⟨?_, sorted_take N (sorted_sortDesc _)⟩
    rw [List.length_take, sortDesc, List.length_insertionSort]
    simp

/-- C4 at capacity `3` and neutral value `0`. -/
theorem tracker_invariant_witness :
    1 ≤ 3 ∧ ∃ t0, TopN.construct 3 0 = some t0 ∧
      (t0.items.length = 3 ∧ t0.items.Sorted (fun a b => a ≥ b)) ∧
      (∀ (t : TopN) (c : Int),
        t.items.length = 3 ∧ t.items.Sorted (fun a b => a ≥ b) →
        (t.Consider c).items.length = 3 ∧
          (t.Consider c).items.Sorted (fun a b => a ≥ b)) ∧
      (∀ cs : List Int,
        (TopN.considerAll t0 cs).items.length = 3 ∧
          (TopN.considerAll t0 cs).items.Sorted (fun a b => a ≥ b)) :=
  ⟨by decide, tracker_invariant 3 0 (by decide)⟩

/-- C5: in every reachable state `Consider c` changes the tracker exactly when `c` is
strictly greater than some retained value; the last retained value is the smallest one,
and a candidate not above it leaves the tracker unchanged; when the tracker changes, the
new list is the old one with `c` inserted at its place in descending order and the last
item dropped. -/
theorem Consider_changes_iff (t : TopN) (c : Int) (ht : t.Reachable) :
    (t.Consider c ≠ t ↔ ∃ x ∈ t.items, x < c) ∧
    (∃ m, t.items.getLast? = some m ∧ (∀ x ∈ t.items, m ≤ x) ∧
      (c ≤ m → t.Consider c = t)) ∧
    (t.Consider c ≠ t →
      t.Consider c =
        { items := (t.items.orderedInsert (fun a b => a ≥ b) c).dropLast,
          default_item := t.default_item }) := by
  have hs := reachable_sorted ht
  refine ⟨?_, ?_, ?_⟩
  · rw [Ne, Consider_eq_self_iff]
    simp
  · obtain ⟨m, hm⟩ : ∃ m, t.items.getLast? = some m := by
      cases hl : t.items.getLast? with
      | none => exact absurd (List.getLast?_eq_none_iff.mp hl) (reachable_ne_nil ht)
      | some m => exact ⟨m, rfl⟩
    have hmin := getLast?_le_of_sorted t.items m hs hm
    refine ⟨m, hm, hmin, ?_⟩
    intro hcm
    rw [Consider_eq_self_iff]
    exact fun x hx => le_trans hcm (hmin x hx)
  · intro _
    rw [Consider_eq, considerItems_sorted_dropLast c _ hs]

/-- C5 at the tracker of capacity `2` after the candidates `5` and `3`, offered `4`. -/
theorem Consider_changes_iff_witness :
    (TopN.Consider { items := [5, 3], default_item := 0 } 4 ≠
        { items := [5, 3], default_item := 0 } ↔ ∃ x ∈ [5, 3], x < (4 : Int)) ∧
    (∃ m, [5, 3].getLast? = some m ∧ (∀ x ∈ [5, 3], m ≤ x) ∧
      ((4 : Int) ≤ m → TopN.Consider { items := [5, 3], default_item := 0 } 4 =
        { items := [5, 3], default_item := 0 })) ∧
    (TopN.Consider { items := [5, 3], default_item := 0 } 4 ≠
        { items := [5, 3], default_item := 0 } →
      TopN.Consider { items := [5, 3], default_item := 0 } 4 =
        { items := ([5, 3].orderedInsert (fun a b => a ≥ b) (4 : Int)).dropLast,
          default_item := 0 }) :=
  Consider_changes_iff { items := [5, 3], default_item := 0 } 4
    (TopN.Reachable.consider 3
      (TopN.Reachable.consider 5 (@TopN.Reachable.construct 2 0 _ rfl)))

/-- C6 as stated fails: the tracker of capacity `2` that has considered `5` and `3`
retains `5, 3`; the candidate `5` equals a retained value, yet `Consider 5` inserts it
before the `3` and the tracker becomes `5, 5`. -/
theorem tie_rejection_counterexample :
    TopN.construct 2 0 = some { items := [0, 0], default_item := 0 } ∧
    TopN.considerAll { items := [0, 0], default_item := 0 } [5, 3] =
      { items := [5, 3], default_item := 0 } ∧
    (5 : Int) ∈ [5, 3] ∧
    TopN.Consider { items := [5, 3], default_item := 0 } 5 =
      { items := [5, 5], default_item := 0 } ∧
    TopN.Consider { items := [5, 3], default_item := 0 } 5 ≠
      { items := [5, 3], default_item := 0 } := by
  decide

/-- C6 as amended: in every reachable state a candidate `c` equal to a retained value is
rejected, leaving the tracker unchanged, exactly when `c` equals the last (smallest)
retained value; otherwise it is inserted at its place in descending order and the last
item is dropped. -/
theorem Consider_tie_unchanged_iff (t : TopN) (c : Int) (ht : t.Reachable)
    (hc : c ∈ t.items) :
    (t.Consider c = t ↔ t.items.getLast? = some c) ∧
    (t.items.getLast? ≠ some c →
      t.Consider c =
        { items := (t.items.orderedInsert (fun a b => a ≥ b) c).dropLast,
          default_item := t.default_item }) := by
  have hs := reachable_sorted ht
  refine ⟨?_, ?_⟩
  · rw [Consider_eq_self_iff]
    constructor
    · intro hall
      cases hl : t.items.getLast? with
      | none => exact absurd (List.getLast?_eq_none_iff.mp hl) (reachable_ne_nil ht)
      | some m =>
        have h1 : c ≤ m := hall m (List.mem_of_getLast?_eq_some hl)
        have h2 : m ≤ c := getLast?_le_of_sorted t.items m hs hl c hc
        rw [le_antisymm h1 h2]
    · intro hl
      exact getLast?_le_of_sorted t.items c hs hl
  · intro _
    rw [Consider_eq, considerItems_sorted_dropLast c _ hs]

/-- C6 as amended, at the tracker retaining `5, 3` and the tie `5`. -/
theorem Consider_tie_unchanged_iff_witness :
    (TopN.Consider { items := [5, 3], default_item := 0 } 5 =
        { items := [5, 3], default_item := 0 } ↔ [5, 3].getLast? = some (5 : Int)) ∧
    ([5, 3].getLast? ≠ some (5 : Int) →
      TopN.Consider { items := [5, 3], default_item := 0 } 5 =
        { items := ([5, 3].orderedInsert (fun a b => a ≥ b) (5 : Int)).dropLast,
          default_item := 0 }) :=
  Consider_tie_unchanged_iff { items := [5, 3], default_item := 0 } 5
    (TopN.Reachable.consider 3
      (TopN.Reachable.consider 5 (@TopN.Reachable.construct 2 0 _ rfl)))
    (by decide)

/-- C7 as stated fails twice over: the tracker of capacity `1` and neutral value `5`
retains the single slot `5`, whose sum is `5`, while `Sum` returns `10`; and the tracker of
capacity `2` and neutral value `0` that has considered `2147483647` and `1` retains both,
whose sum is `2147483648`, while `Sum`, an `int`, returns `-2147483648`. -/
theorem Sum_nonzero_neutral_counterexample :
    (TopN.construct 1 5 = some { items := [5], default_item := 5 } ∧
      TopN.Sum { items := [5], default_item := 5 } = 10 ∧
      ([5] : List Int).sum = 5 ∧
      TopN.Sum { items := [5], default_item := 5 } ≠ ([5] : List Int).sum) ∧
    (TopN.construct 2 0 = some { items := [0, 0], default_item := 0 } ∧
      TopN.considerAll { items := [0, 0], default_item := 0 } [2147483647, 1] =
        { items := [2147483647, 1], default_item := 0 } ∧
      TopN.Sum { items := [2147483647, 1], default_item := 0 } = -2147483648 ∧
      ([2147483647, 1] : List Int).sum = 2147483648) := by
  decide

/-- C7 as amended: for every capacity `N ≥ 1` and neutral value `z`, after any sequence
of `Consider` calls the tracker holds `N` slots and `Sum` returns `z` plus the sum of
those slots, reduced into the `int` range; it is exactly `z` plus the sum of the slots
when that total fits an `int`, and exactly the sum of the slots when moreover `z = 0`. -/
theorem Sum_eq_neutral_add_sum (N : Nat) (z : Int) (cs : List Int) (hN : 1 ≤ N) :
    ∃ t0, TopN.construct N z = some t0 ∧
      (TopN.considerAll t0 cs).items.length = N ∧
      (TopN.considerAll t0 cs).Sum = wrapInt (z + (TopN.considerAll t0 cs).items.sum) ∧
      (INT_MIN ≤ z + (TopN.considerAll t0 cs).items.sum →
        z + (TopN.considerAll t0 cs).items.sum ≤ INT_MAX →
        (TopN.considerAll t0 cs).Sum = z + (TopN.considerAll t0 cs).items.sum ∧
        (z = 0 → (TopN.considerAll t0 cs).Sum = (TopN.considerAll t0 cs).items.sum)) := by
  have hsum := Sum_considerAll_init N z cs hN
  refine ⟨TopN.init N z, construct_eq_some N z hN, considerAll_init_length N z cs, hsum, ?_⟩
  intro hlo hhi
  have hexact : (TopN.considerAll (TopN.init N z) cs).Sum =
      z + (TopN.considerAll (TopN.init N z) cs).items.sum := by
    rw [hsum, wrapInt_eq_self hlo hhi]
  refine ⟨hexact, ?_⟩
  intro hz
  rw [hexact, hz, zero_add]

/-- C7 as amended, at capacity `2`, neutral value `5` and the candidates `7, 6`: `Sum`
returns `18`, the slots sum to `13`. -/
theorem Sum_eq_neutral_add_sum_witness :
    (TopN.construct 2 5).map (fun t => (TopN.considerAll t [7, 6]).Sum) = some 18 ∧
    (TopN.construct 2 5).map (fun t => (TopN.considerAll t [7, 6]).items.sum) = some 13 ∧
    ∃ t0, TopN.construct 2 5 = some t0 ∧
      (TopN.considerAll t0 [7, 6]).items.length = 2 ∧
      (TopN.considerAll t0 [7, 6]).Sum =
        wrapInt (5 + (TopN.considerAll t0 [7, 6]).items.sum) ∧
      (INT_MIN ≤ 5 + (TopN.considerAll t0 [7, 6]).items.sum →
        5 + (TopN.considerAll t0 [7, 6]).items.sum ≤ INT_MAX →
        (TopN.considerAll t0 [7, 6]).Sum = 5 + (TopN.considerAll t0 [7, 6]).items.sum ∧
        ((5 : Int) = 0 →
          (TopN.considerAll t0 [7, 6]).Sum = (TopN.considerAll t0 [7, 6]).items.sum)) :=
  ⟨by decide, by decide, Sum_eq_neutral_add_sum 2 5 [7, 6] (by decide)⟩

/-- C8 as stated fails: with `N = 1` and the single group sum `-5` the tracker keeps its
zero slot, so `Sum` returns `0`, which exceeds `-5`, the sum of the one largest group
sum. -/
theorem Sum_upper_bound_counterexample :
    (TopN.construct 1 0).map (fun t => (TopN.considerAll t [-5]).Sum) = some 0 ∧
    ((sortDesc [-5]).take 1).sum = -5 ∧
    ¬ ((0 : Int) ≤ ((sortDesc [-5]).take 1).sum) := by
  decide

/-- C8 as amended: for every `N ≥ 1` and every list of signed group sums considered by a
fresh tracker with neutral zero, `Sum` is the `int` sum of the `N` largest among the group
sums and `N` zeros; it never exceeds the sum of the `N` largest group sums of the list
(all of them when the list has fewer than `N`) when none of these largest is negative;
and while the retained slots sum to at most `INT_MAX`, the bound holds exactly in that
case: a negative one among the largest loses its slot to a zero. -/
theorem Sum_le_sum_largest (N : Nat) (cs : List Int) (hN : 1 ≤ N) :
    ∃ t0, TopN.construct N 0 = some t0 ∧
      (TopN.considerAll t0 cs).Sum =
        wrapInt ((sortDesc (cs ++ List.replicate N 0)).take N).sum ∧
      ((∀ x ∈ (sortDesc cs).take N, 0 ≤ x) →
        (TopN.considerAll t0 cs).Sum ≤ ((sortDesc cs).take N).sum) ∧
      ((TopN.considerAll t0 cs).items.sum ≤ INT_MAX →
        ((TopN.considerAll t0 cs).Sum ≤ ((sortDesc cs).take N).sum ↔
          ∀ x ∈ (sortDesc cs).take N, 0 ≤ x)) := by
  have hsum := Sum_considerAll_init N 0 cs hN
  rw [zero_add] at hsum
  have hitems := sum_items_considerAll_zero N cs
  have hnn := sum_filter_nonneg_nonneg ((sortDesc cs).take N)
  obtain ⟨_, hiff⟩ := sum_filter_nonneg ((sortDesc cs).take N)
  refine ⟨TopN.init N 0, construct_eq_some N 0 hN, ?_, ?_, ?_⟩
  · rw [hsum, considerAll_init_items]
  · intro hall
    have h1 := hiff.mpr hall
    have h2 : wrapInt (TopN.considerAll (TopN.init N 0) cs).items.sum ≤
        (TopN.considerAll (TopN.init N 0) cs).items.sum :=
      wrapInt_le_self (by rw [hitems]; unfold INT_MIN; omega)
    rw [hsum]
    omega
  · intro hmax
    rw [hsum, wrapInt_eq_self (by rw [hitems]; unfold INT_MIN; omega) hmax, hitems]
    exact hiff

/-- C8 as amended, at `N = 2` and the group sums `-5, 3, -1, 4`: the two largest are `4`
and `3`, and `Sum` is `7`. -/
theorem Sum_le_sum_largest_witness :
    (TopN.construct 2 0).map (fun t => (TopN.considerAll t [-5, 3, -1, 4]).Sum) = some 7 ∧
    ((sortDesc [-5, 3, -1, 4]).take 2).sum = 7 ∧
    ∃ t0, TopN.construct 2 0 = some t0 ∧
      (TopN.considerAll t0 [-5, 3, -1, 4]).Sum =
        wrapInt ((sortDesc ([-5, 3, -1, 4] ++ List.replicate 2 0)).take 2).sum ∧
      ((∀ x ∈ (sortDesc [-5, 3, -1, 4]).take 2, 0 ≤ x) →
        (TopN.considerAll t0 [-5, 3, -1, 4]).Sum ≤ ((sortDesc [-5, 3, -1, 4]).take 2).sum) ∧
      ((TopN.considerAll t0 [-5, 3, -1, 4]).items.sum ≤ INT_MAX →
        ((TopN.considerAll t0 [-5, 3, -1, 4]).Sum ≤
            ((sortDesc [-5, 3, -1, 4]).take 2).sum ↔
          ∀ x ∈ (sortDesc [-5, 3, -1, 4]).take 2, 0 ≤ x)) :=
  ⟨by decide, by decide, Sum_le_sum_largest 2 [-5, 3, -1, 4] (by decide)⟩

/-- C9 as stated fails: with `N = 3` and the two non-negative group sums `2147483647` and
`1` the slots are `2147483647, 1, 0`, the group sums add up to `2147483648`, and `Sum`,
an `int`, returns `-2147483648`. -/
theorem Sum_neutral_fill_counterexample :
    (1 ≤ 3 ∧ [2147483647, 1].length < 3 ∧ (∀ c ∈ [2147483647, 1], (0 : Int) ≤ c)) ∧
    (TopN.construct 3).map (fun t => (TopN.considerAll t [2147483647, 1]).items) =
      some [2147483647, 1, 0] ∧
    (TopN.construct 3).map (fun t => (TopN.considerAll t [2147483647, 1]).Sum) =
      some (-2147483648) ∧
    ([2147483647, 1] : List Int).sum = 2147483648 := by
  decide

/-- C9 as amended: for every `N ≥ 1` and every list of fewer than `N` non-negative group
sums considered by a fresh tracker with neutral zero, the retained slots are the group
sums in descending order followed by zeros, and `Sum` is the sum of all the group sums
reduced into the `int` range: exactly that sum when it is at most `INT_MAX`. -/
theorem Sum_neutral_fill (N : Nat) (cs : List Int) (hN : 1 ≤ N) (hlen : cs.length < N)
    (hcs : ∀ c ∈ cs, 0 ≤ c) :
    ∃ t0, TopN.construct N = some t0 ∧
      (TopN.considerAll t0 cs).items =
        sortDesc cs ++ List.replicate (N - cs.length) 0 ∧
      (TopN.considerAll t0 cs).Sum = wrapInt cs.sum ∧
      (cs.sum ≤ INT_MAX → (TopN.considerAll t0 cs).Sum = cs.sum) := by
  have hl : (sortDesc cs).length = cs.length := List.length_insertionSort _ cs
  have hitems : (TopN.considerAll (TopN.init N 0) cs).items.sum = cs.sum := by
    rw [sum_items_considerAll_nonneg N cs hcs, List.take_of_length_le (by omega)]
    exact (perm_sortDesc cs).sum_eq
  have hsum : (TopN.considerAll (TopN.init N 0) cs).Sum = wrapInt cs.sum := by
    rw [Sum_considerAll_init N 0 cs hN, zero_add, hitems]
  refine ⟨TopN.init N 0, construct_eq_some N 0 hN, ?_, hsum, ?_⟩
  · rw [considerAll_init_items, sortDesc_append_replicate_zero cs N hcs,
      List.take_append_eq_append_take, List.take_of_length_le (by omega), hl,
      List.take_replicate]
    congr 2
    omega
  · intro hmax
    have h0 : 0 ≤ cs.sum := List.sum_nonneg hcs
    rw [hsum, wrapInt_eq_self (by unfold INT_MIN; omega) hmax]

/-- C9 as amended, at `N = 5` and the group sums `10` and `20`: the reported sum is
`30`. -/
theorem Sum_neutral_fill_witness :
    (1 ≤ 5 ∧ [10, 20].length < 5 ∧ (∀ c ∈ [10, 20], (0 : Int) ≤ c)) ∧
    (TopN.construct 5).map (fun t => (TopN.considerAll t [10, 20]).Sum) = some 30 ∧
    ∃ t0, TopN.construct 5 = some t0 ∧
      (TopN.considerAll t0 [10, 20]).items =
        sortDesc [10, 20] ++ List.replicate (5 - [10, 20].length) 0 ∧
      (TopN.considerAll t0 [10, 20]).Sum = wrapInt ([10, 20] : List Int).sum ∧
      (([10, 20] : List Int).sum ≤ INT_MAX →
        (TopN.considerAll t0 [10, 20]).Sum = ([10, 20] : List Int).sum) :=
  ⟨⟨by decide, by decide, by decide⟩, by decide,
    Sum_neutral_fill 5 [10, 20] (by decide) (by decide) (by decide)⟩

/-- C10: for every `N ≥ 1`, every neutral value, every list of candidates and every
permutation of it, a fresh tracker ends with the same retained list, hence the same
`Sum`, whichever order the candidates are considered in. -/
theorem Sum_order_invariant (N : Nat) (z : Int) (cs cs2 : List Int) (hN : 1 ≤ N)
    (hperm : cs.Perm cs2) :
    ∃ t0, TopN.construct N z = some t0 ∧
      TopN.considerAll t0 cs = TopN.considerAll t0 cs2 ∧
      (TopN.considerAll t0 cs).Sum = (TopN.considerAll t0 cs2).Sum := by
  have hitems : (TopN.considerAll (TopN.init N z) cs).items =
      (TopN.considerAll (TopN.init N z) cs2).items := by
    rw [considerAll_init_items, considerAll_init_items,
      sortDesc_eq_of_perm (List.Perm.append_right _ hperm)]
  have hd : (TopN.considerAll (TopN.init N z) cs).default_item =
      (TopN.considerAll (TopN.init N z) cs2).default_item := by
    rw [considerAll_default_item, considerAll_default_item]
  have heq : TopN.considerAll (TopN.init N z) cs = TopN.considerAll (TopN.init N z) cs2 := by
    cases h1 : TopN.considerAll (TopN.init N z) cs
    cases h2 : TopN.considerAll (TopN.init N z) cs2
    rw [h1, h2] at hitems hd
    simp only at hitems hd
    rw [hitems, hd]
  exact ⟨TopN.init N z, construct_eq_some N z hN, heq, by rw [heq]⟩

/-- C10 at `N = 2`, neutral zero and the candidates `5, 3, 5` against `3, 5, 5`. -/
theorem Sum_order_invariant_witness :
    (1 ≤ 2 ∧ [5, 3, 5].Perm [3, 5, (5 : Int)]) ∧
    ∃ t0, TopN.construct 2 0 = some t0 ∧
      TopN.considerAll t0 [5, 3, 5] = TopN.considerAll t0 [3, 5, 5] ∧
      (TopN.considerAll t0 [5, 3, 5]).Sum = (TopN.considerAll t0 [3, 5, 5]).Sum :=
  ⟨⟨by decide, by decide⟩,
    Sum_order_invariant 2 0 [5, 3, 5] [3, 5, 5] (by decide) (by decide)⟩

/-! ## Auxiliary facts about the scanning loop -/

theorem considerAll_cons (t : TopN) (c : Int) (cs : List Int) :
    TopN.considerAll t (c :: cs) = TopN.considerAll (t.Consider c) cs := rfl

/-- The loop returns the tracker that has considered the recorded values in order. -/
theorem processLines_eq_considerAll :
    ∀ (lines : List (List Char)) (top : TopN) (calories : Int),
      processLines top calories lines =
        (consideredValues calories lines).map (TopN.considerAll top)
  | [], _, _ => rfl
  | line :: rest, top, calories => by
    unfold processLines consideredValues
    by_cases hl : line.isEmpty
    · simp only [hl, Bool.not_true, Bool.false_eq_true, if_false]
      rw [processLines_eq_considerAll rest, Option.map_map]
      rfl
    · simp only [hl, Bool.not_false, if_true]
      cases stoi line with
      | none => rfl
      | some v => exact processLines_eq_considerAll rest top _

theorem process_list_eq (input_file : List Char) (n : Nat) (hn : 1 ≤ n) :
    process_list input_file n =
      (consideredValues 0 (getlines input_file)).map (TopN.considerAll (TopN.init n 0)) := by
  unfold process_list
  rw [construct_eq_some n 0 hn]
  exact processLines_eq_considerAll _ _ _

theorem groupValues_cons_of_stoi {line : List Char} {v : Int} (h : stoi line = some v)
    (g : List (List Char)) : groupValues (line :: g) = v :: groupValues g := by
  simp [groupValues, List.filterMap_cons, h]

/-- The recorded values are the `int` sums of the closed groups, the first of them
starting from the current value of `calories`. -/
theorem consideredValues_eq_closedGroups :
    ∀ (lines : List (List Char)) (calories : Int),
      (∀ line ∈ lines, line ≠ [] → (stoi line).isSome) →
      consideredValues calories lines =
        some (match closedGroups lines with
          | [] => []
          | g :: gs =>
            intSumFrom calories (groupValues g) ::
              gs.map (fun g => intSumFrom 0 (groupValues g)))
  | [], _, _ => rfl
  | line :: rest, calories, hv => by
    have hrest : ∀ l ∈ rest, l ≠ [] → (stoi l).isSome :=
      fun l hl => hv l (List.mem_cons_of_mem _ hl)
    unfold consideredValues closedGroups
    by_cases hl : line.isEmpty
    · simp only [hl, Bool.not_true, Bool.false_eq_true, if_false, if_true]
      rw [consideredValues_eq_closedGroups rest 0 hrest]
      cases closedGroups rest <;> simp [intSumFrom, groupValues]
    · simp only [hl, Bool.not_false, if_true, Bool.false_eq_true, if_false]
      have hne : line ≠ [] := by
        intro h0
        exact hl (by simp [h0])
      obtain ⟨v, hvl⟩ := Option.isSome_iff_exists.mp (hv line (List.mem_cons_self _ _) hne)
      simp only [hvl]
      rw [consideredValues_eq_closedGroups rest _ hrest]
      cases closedGroups rest with
      | nil => rfl
      | cons g gs =>
        simp only [groupValues_cons_of_stoi hvl]
        rfl

theorem consideredValues_zero (lines : List (List Char))
    (hv : ∀ line ∈ lines, line ≠ [] → (stoi line).isSome) :
    consideredValues 0 lines =
      some ((closedGroups lines).map (fun g => intSumFrom 0 (groupValues g))) := by
  rw [consideredValues_eq_closedGroups lines 0 hv]
  cases closedGroups lines <;> rfl

/-- While every running sum stays within the `int` range the `int` sum is the exact one. -/
theorem intSumFrom_eq_of_range :
    ∀ (vs : List Int) (acc : Int),
      (∀ k, INT_MIN ≤ acc + (vs.take k).sum ∧ acc + (vs.take k).sum ≤ INT_MAX) →
      intSumFrom acc vs = acc + vs.sum
  | [], acc, _ => by simp [intSumFrom]
  | v :: vs, acc, h => by
    have h1 := h 1
    simp only [List.take_succ_cons, List.take_zero, List.sum_cons, List.sum_nil,
      add_zero] at h1
    have hstep : intSumFrom acc (v :: vs) = intSumFrom (wrapInt (acc + v)) vs := rfl
    rw [hstep, wrapInt_eq_self h1.1 h1.2, intSumFrom_eq_of_range vs (acc + v)]
    · simp [add_assoc]
    · intro k
      have hk := h (k + 1)
      simp only [List.take_succ_cons, List.sum_cons] at hk
      rw [add_assoc]
      exact hk

theorem sum_take_nonneg {vs : List Int} (h : ∀ v ∈ vs, 0 ≤ v) (k : Nat) :
    0 ≤ (vs.take k).sum :=
  List.sum_nonneg (fun v hv => h v (List.mem_of_mem_take hv))

theorem sum_take_le_sum : ∀ (vs : List Int), (∀ v ∈ vs, 0 ≤ v) → ∀ k : Nat,
    (vs.take k).sum ≤ vs.sum
  | [], _, k => by simp
  | v :: vs, h, 0 => by
    simpa using List.sum_nonneg h
  | v :: vs, h, k + 1 => by
    have := sum_take_le_sum vs (fun x hx => h x (List.mem_cons_of_mem _ hx)) k
    simp only [List.take_succ_cons, List.sum_cons]
    omega

/-- Non-negative values whose exact sum fits an `int` are summed exactly. -/
theorem intSumFrom_zero_of_nonneg (vs : List Int) (h : ∀ v ∈ vs, 0 ≤ v)
    (hmax : vs.sum ≤ INT_MAX) : intSumFrom 0 vs = vs.sum := by
  rw [intSumFrom_eq_of_range vs 0, zero_add]
  intro k
  have h0 := sum_take_nonneg h k
  have h1 := sum_take_le_sum vs h k
  unfold INT_MIN
  constructor
  · omega
  · omega

theorem length_closedGroups :
    ∀ lines : List (List Char),
      (closedGroups lines).length = (lines.filter (fun l => l.isEmpty)).length
  | [] => rfl
  | line :: rest => by
    unfold closedGroups
    by_cases hl : line.isEmpty
    · simp [hl, length_closedGroups rest]
    · have ih := length_closedGroups rest
      simp only [hl, Bool.false_eq_true, if_false, List.filter_cons]
      cases hc : closedGroups rest with
      | nil =>
        rw [hc] at ih
        simpa using ih
      | cons g gs =>
        rw [hc] at ih
        simpa using ih

/-- With every non-empty line accepted by `std::stoi` and a capacity of at least one,
`process_list` returns a tracker. -/
theorem process_list_isSome (input_file : List Char) (n : Nat) (hn : 1 ≤ n)
    (hv : ∀ line ∈ getlines input_file, line ≠ [] → (stoi line).isSome) :
    ∃ t, process_list input_file n = some t := by
  rw [process_list_eq input_file n hn, consideredValues_zero _ hv]
  exact ⟨_, rfl⟩

/-! ## The command line -/

/-- C12: the constructor fails exactly when the capacity is not at least one, and for
every capacity `N ≥ 1` and neutral value `z` it yields the tracker whose retained list
is `N` copies of `z`. -/
theorem construct_spec (N : Nat) (z : Int) :
    (TopN.construct N z = none ↔ ¬ 1 ≤ N) ∧
    TopN.construct N z =
      if 1 ≤ N then some { items := List.replicate N z, default_item := z } else none := by
  cases N with
  | zero => simp [TopN.construct, TopN.init]
  | succ k =>
    rw [construct_eq_some (k + 1) z (by omega)]
    simp [TopN.init]

/-! ## The scanner -/

/-- C13 as stated fails: on the lines `2147483647`, `1` and an empty line, all valid
integers, the exact sum of the group is `2147483648`, which no `int` holds; the value
the loop passes to `Consider` is `-2147483648`. -/
theorem consideredValues_overflow_counterexample :
    (∀ line ∈ getlines "2147483647\n1\n\n".toList, line ≠ [] → (stoi line).isSome) ∧
    consideredValues 0 (getlines "2147483647\n1\n\n".toList) = some [-2147483648] ∧
    groupSums (getlines "2147483647\n1\n\n".toList) = [2147483648] ∧
    consideredValues 0 (getlines "2147483647\n1\n\n".toList) ≠
      some (groupSums (getlines "2147483647\n1\n\n".toList)) := by
  decide

/-- C13 as amended: for every input whose non-empty lines are accepted by `std::stoi`, the
values passed to `Consider` are, in order, one per empty line, the sum in `int`
arithmetic, started from zero, of the non-empty lines since the previous empty line (or
the start of the input); `process_list` returns the tracker that considered exactly
these values; and when every running sum of every group stays within the `int` range,
the values are the exact group sums. -/
theorem consideredValues_spec (content : List Char)
    (hvalid : ∀ line ∈ getlines content, line ≠ [] → (stoi line).isSome) :
    ∃ vals, consideredValues 0 (getlines content) = some vals ∧
      (∀ n, 1 ≤ n → process_list content n = some (TopN.considerAll (TopN.init n 0) vals)) ∧
      vals = (closedGroups (getlines content)).map
        (fun g => intSumFrom 0 (groupValues g)) ∧
      vals.length = ((getlines content).filter (fun l => l.isEmpty)).length ∧
      ((∀ g ∈ closedGroups (getlines content), ∀ k,
          INT_MIN ≤ ((groupValues g).take k).sum ∧
            ((groupValues g).take k).sum ≤ INT_MAX) →
        vals = groupSums (getlines content)) := by
  refine ⟨_, consideredValues_zero _ hvalid, ?_, rfl, ?_, ?_⟩
  · intro n hn
    rw [process_list_eq content n hn, consideredValues_zero _ hvalid]
    rfl
  · rw [List.length_map, length_closedGroups]
  · intro hrange
    unfold groupSums
    apply List.map_congr_left
    intro g hg
    rw [intSumFrom_eq_of_range (groupValues g) 0, zero_add]
    intro k
    rw [zero_add]
    exact hrange g hg k

/-- C13 as amended, on the file `"1\n2\n\n\n5\n\n7\n"`: the two adjacent empty lines
submit a zero after the `3`, and the trailing `7` is not submitted. -/
theorem consideredValues_spec_witness :
    consideredValues 0 (getlines "1\n2\n\n\n5\n\n7\n".toList) = some [3, 0, 5] ∧
    ∃ vals, consideredValues 0 (getlines "1\n2\n\n\n5\n\n7\n".toList) = some vals ∧
      (∀ n, 1 ≤ n → process_list "1\n2\n\n\n5\n\n7\n".toList n =
        some (TopN.considerAll (TopN.init n 0) vals)) ∧
      vals = (closedGroups (getlines "1\n2\n\n\n5\n\n7\n".toList)).map
        (fun g => intSumFrom 0 (groupValues g)) ∧
      vals.length =
        ((getlines "1\n2\n\n\n5\n\n7\n".toList).filter (fun l => l.isEmpty)).length ∧
      ((∀ g ∈ closedGroups (getlines "1\n2\n\n\n5\n\n7\n".toList), ∀ k,
          INT_MIN ≤ ((groupValues g).take k).sum ∧
            ((groupValues g).take k).sum ≤ INT_MAX) →
        vals = groupSums (getlines "1\n2\n\n\n5\n\n7\n".toList)) :=
  ⟨by decide, consideredValues_spec "1\n2\n\n\n5\n\n7\n".toList (by decide)⟩

theorem mem_of_mem_closedGroups :
    ∀ (lines : List (List Char)) (g : List (List Char)), g ∈ closedGroups lines →
      ∀ l ∈ g, l ∈ lines ∧ l ≠ []
  | [], g, hg => by simp [closedGroups] at hg
  | line :: rest, g, hg => by
    unfold closedGroups at hg
    by_cases hl : line.isEmpty
    · simp only [hl, if_true, List.mem_cons] at hg
      rcases hg with rfl | hg
      · intro l hl0
        simp at hl0
      · intro l hlg
        have := mem_of_mem_closedGroups rest g hg l hlg
        exact ⟨List.mem_cons_of_mem _ this.1, this.2⟩
    · simp only [hl, Bool.false_eq_true, if_false] at hg
      have hne : line ≠ [] := by
        intro h0
        exact hl (by simp [h0])
      cases hc : closedGroups rest with
      | nil => simp [hc] at hg
      | cons g0 gs =>
        rw [hc] at hg
        simp only [List.mem_cons] at hg
        have hin : ∀ g1, g1 ∈ closedGroups rest → ∀ l ∈ g1, l ∈ line :: rest ∧ l ≠ [] := by
          intro g1 hg1 l hlg
          have := mem_of_mem_closedGroups rest g1 hg1 l hlg
          exact ⟨List.mem_cons_of_mem _ this.1, this.2⟩
        rcases hg with rfl | hg
        · intro l hlg
          rcases List.mem_cons.mp hlg with rfl | hlg
          · exact ⟨List.mem_cons_self _ _, hne⟩
          · exact hin g0 (by rw [hc]; exact List.mem_cons_self _ _) l hlg
        · exact hin g (by rw [hc]; exact List.mem_cons_of_mem _ hg)

theorem groupValues_nonneg (lines : List (List Char))
    (hval : ∀ line ∈ lines, line ≠ [] → ∃ v, stoi line = some v ∧ 0 ≤ v)
    (g : List (List Char)) (hg : g ∈ closedGroups lines) :
    ∀ v ∈ groupValues g, 0 ≤ v := by
  intro v hv
  obtain ⟨l, hl, hs⟩ := List.mem_filterMap.mp hv
  obtain ⟨hmem, hne⟩ := mem_of_mem_closedGroups lines g hg l hl
  obtain ⟨w, hw, hw0⟩ := hval l hmem hne
  rw [hw] at hs
  cases hs
  exact hw0

/-- When the last line is empty, every non-empty line lies in a closed group. -/
theorem closedGroups_flatten :
    ∀ lines : List (List Char), lines.getLast? = some [] →
      (closedGroups lines).flatten = lines.filter (fun l => !l.isEmpty)
  | [], h => by simp at h
  | [line], h => by
    simp at h
    subst h
    rfl
  | line :: l2 :: rest, h => by
    have hlast : (l2 :: rest).getLast? = some [] := by simpa using h
    have ih := closedGroups_flatten (l2 :: rest) hlast
    have hlen := length_closedGroups (l2 :: rest)
    generalize l2 :: rest = tl at hlast ih hlen ⊢
    unfold closedGroups
    by_cases hl : line.isEmpty
    · simp only [hl, if_true, List.flatten_cons, List.nil_append, List.filter_cons,
        Bool.not_true, Bool.false_eq_true, if_false]
      exact ih
    · simp only [hl, Bool.false_eq_true, if_false, List.filter_cons, Bool.not_false,
        if_true]
      cases hc : closedGroups tl with
      | nil =>
        exfalso
        rw [hc] at hlen
        have hmem : ([] : List Char) ∈ tl.filter (fun l => l.isEmpty) :=
          List.mem_filter.mpr ⟨List.mem_of_getLast?_eq_some hlast, rfl⟩
        have h0 : tl.filter (fun l => l.isEmpty) = [] :=
          List.length_eq_zero.mp hlen.symm
        rw [h0] at hmem
        simp at hmem
      | cons g gs =>
        rw [hc] at ih
        simp only [List.flatten_cons, List.cons_append] at ih ⊢
        rw [ih]

/-- C14: for every input whose non-empty lines are non-negative integers and whose last
line is empty, every `N ≥ 1`, and sums within the `int` range (every group sum and the
sum of the `N` largest group sums are at most `INT_MAX`), `process_list` returns a tracker
whose `Sum` is the sum of the `N` largest group sums counted with multiplicity (all of
them when there are fewer than `N`); every non-empty line of such an input lies in a
group closed by an empty line. -/
theorem process_list_sum_of_largest (content : List Char) (N : Nat) (hN : 1 ≤ N)
    (hval : ∀ line ∈ getlines content, line ≠ [] → ∃ v, stoi line = some v ∧ 0 ≤ v)
    (hlast : (getlines content).getLast? = some [])
    (hrange : ∀ g ∈ closedGroups (getlines content), (groupValues g).sum ≤ INT_MAX)
    (htotal : ((sortDesc (groupSums (getlines content))).take N).sum ≤ INT_MAX) :
    (closedGroups (getlines content)).flatten =
      (getlines content).filter (fun l => !l.isEmpty) ∧
    ∃ t, process_list content N = some t ∧
      t.Sum = ((sortDesc (groupSums (getlines content))).take N).sum := by
  have hvalid : ∀ line ∈ getlines content, line ≠ [] → (stoi line).isSome := by
    intro line hl hne
    obtain ⟨v, hv, _⟩ := hval line hl hne
    simp [hv]
  have hvals : (closedGroups (getlines content)).map
      (fun g => intSumFrom 0 (groupValues g)) = groupSums (getlines content) := by
    unfold groupSums
    apply List.map_congr_left
    intro g hg
    exact intSumFrom_zero_of_nonneg _ (groupValues_nonneg _ hval g hg) (hrange g hg)
  have hnonneg : ∀ c ∈ groupSums (getlines content), 0 ≤ c := by
    intro c hc
    obtain ⟨g, hg, rfl⟩ := List.mem_map.mp hc
    exact List.sum_nonneg (groupValues_nonneg _ hval g hg)
  have hitems := sum_items_considerAll_nonneg N (groupSums (getlines content)) hnonneg
  have h0 : 0 ≤ ((sortDesc (groupSums (getlines content))).take N).sum :=
    List.sum_nonneg (fun x hx =>
      hnonneg x ((perm_sortDesc _).mem_iff.mp (List.mem_of_mem_take hx)))
  refine ⟨closedGroups_flatten _ hlast,
    TopN.considerAll (TopN.init N 0) (groupSums (getlines content)), ?_, ?_⟩
  · rw [process_list_eq content N hN, consideredValues_zero _ hvalid, hvals]
    rfl
  · rw [Sum_considerAll_init N 0 _ hN, zero_add, hitems,
      wrapInt_eq_self (by unfold INT_MIN; omega) htotal]

/-- C14 on the file `"3\n4\n\n8\n\n8\n\n"` with `N = 2`: the group sums are `7, 8, 8`
and the reported sum is `16`. -/
theorem process_list_sum_of_largest_witness :
    (process_list "3\n4\n\n8\n\n8\n\n".toList 2).map TopN.Sum = some 16 ∧
    groupSums (getlines "3\n4\n\n8\n\n8\n\n".toList) = [7, 8, 8] ∧
    ((closedGroups (getlines "3\n4\n\n8\n\n8\n\n".toList)).flatten =
      (getlines "3\n4\n\n8\n\n8\n\n".toList).filter (fun l => !l.isEmpty) ∧
    ∃ t, process_list "3\n4\n\n8\n\n8\n\n".toList 2 = some t ∧
      t.Sum = ((sortDesc (groupSums (getlines "3\n4\n\n8\n\n8\n\n".toList))).take 2).sum) :=
  ⟨by decide, by decide,
    process_list_sum_of_largest "3\n4\n\n8\n\n8\n\n".toList 2 (by decide) (by decide)
      (by decide) (by decide) (by decide)⟩

/-- On lines none of which is empty the loop leaves the tracker as it is. -/
theorem processLines_no_empty_line :
    ∀ (lines : List (List Char)) (top : TopN) (calories : Int),
      (∀ line ∈ lines, line ≠ [] ∧ (stoi line).isSome) →
      processLines top calories lines = some top
  | [], _, _, _ => rfl
  | line :: rest, top, calories, h => by
    obtain ⟨hne, hs⟩ := h line (List.mem_cons_self _ _)
    obtain ⟨v, hv⟩ := Option.isSome_iff_exists.mp hs
    have hl : line.isEmpty = false := by
      cases line with
      | nil => exact absurd rfl hne
      | cons c cs => rfl
    unfold processLines
    simp only [hl, Bool.not_false, if_true, hv]
    exact processLines_no_empty_line rest top _
      (fun l hl2 => h l (List.mem_cons_of_mem _ hl2))

/-- Two inputs that share everything up to an empty line, and have no empty line after
it, leave the loop with the same tracker. -/
theorem processLines_tail_irrelevant (tail1 tail2 : List (List Char))
    (h1 : ∀ line ∈ tail1, line ≠ [] ∧ (stoi line).isSome)
    (h2 : ∀ line ∈ tail2, line ≠ [] ∧ (stoi line).isSome) :
    ∀ (pre : List (List Char)) (top : TopN) (calories : Int),
      processLines top calories (pre ++ [] :: tail1) =
        processLines top calories (pre ++ [] :: tail2)
  | [], top, calories => by
    have e1 : processLines top calories ([] :: tail1) =
        processLines (top.Consider calories) 0 tail1 := rfl
    have e2 : processLines top calories ([] :: tail2) =
        processLines (top.Consider calories) 0 tail2 := rfl
    rw [List.nil_append, List.nil_append, e1, e2,
      processLines_no_empty_line tail1 _ _ h1, processLines_no_empty_line tail2 _ _ h2]
  | line :: pre, top, calories => by
    simp only [List.cons_append]
    unfold processLines
    by_cases hl : line.isEmpty
    · simp only [hl, Bool.not_true, Bool.false_eq_true, if_false]
      exact processLines_tail_irrelevant tail1 tail2 h1 h2 pre _ _
    · simp only [hl, Bool.not_false, if_true]
      cases stoi line with
      | none => rfl
      | some v => exact processLines_tail_irrelevant tail1 tail2 h1 h2 pre _ _

/-- C15: for every `N`, two inputs whose non-empty lines are accepted by `std::stoi` and
that agree up to and including their last empty line give the same result of
`process_list`, a tracker when `N ≥ 1`; and an input with no empty line gives the
freshly constructed tracker, whose `Sum` is `0`. -/
theorem process_list_ignores_last_group (N : Nat) :
    (∀ (content1 content2 : List Char) (pre tail1 tail2 : List (List Char)),
      getlines content1 = pre ++ [] :: tail1 →
      getlines content2 = pre ++ [] :: tail2 →
      (∀ line ∈ tail1, line ≠ []) → (∀ line ∈ tail2, line ≠ []) →
      (∀ line ∈ getlines content1, line ≠ [] → (stoi line).isSome) →
      (∀ line ∈ getlines content2, line ≠ [] → (stoi line).isSome) →
      process_list content1 N = process_list content2 N ∧
        (1 ≤ N → ∃ t, process_list content1 N = some t)) ∧
    (∀ content : List Char,
      (∀ line ∈ getlines content, line ≠ [] ∧ (stoi line).isSome) →
      process_list content N = TopN.construct N ∧
        (1 ≤ N → (process_list content N).map TopN.Sum = some 0)) := by
  constructor
  · intro content1 content2 pre tail1 tail2 h1 h2 ht1 ht2 hv1 hv2
    constructor
    · unfold process_list
      cases TopN.construct N with
      | none => rfl
      | some top =>
        simp only [h1, h2]
        apply processLines_tail_irrelevant
        · intro line hl
          exact ⟨ht1 line hl, hv1 line (by rw [h1]; simp [hl]) (ht1 line hl)⟩
        · intro line hl
          exact ⟨ht2 line hl, hv2 line (by rw [h2]; simp [hl]) (ht2 line hl)⟩
    · intro hN
      exact process_list_isSome content1 N hN hv1
  · intro content hv
    have hpl : process_list content N = TopN.construct N := by
      unfold process_list
      cases TopN.construct N with
      | none => rfl
      | some top => exact processLines_no_empty_line _ top 0 hv
    refine ⟨hpl, ?_⟩
    intro hN
    have hsum : (TopN.init N 0).Sum = wrapInt (0 + (TopN.init N 0).items.sum) :=
      Sum_considerAll_init N 0 [] hN
    rw [hpl, construct_eq_some N 0 hN, Option.map_some', hsum]
    simp [TopN.init, wrapInt_zero]

/-- C15 on the files `"3\n\n8\n"` and `"3\n\n1\n2"`, which agree up to their last empty
line, and on the file `"5\n6\n"`, which has no empty line, with `N = 2`. -/
theorem process_list_ignores_last_group_witness :
    (process_list "3\n\n8\n".toList 2 = process_list "3\n\n1\n2".toList 2 ∧
      (1 ≤ 2 → ∃ t, process_list "3\n\n8\n".toList 2 = some t)) ∧
    (process_list "5\n6\n".toList 2 = TopN.construct 2 ∧
      (1 ≤ 2 → (process_list "5\n6\n".toList 2).map TopN.Sum = some 0)) :=
  ⟨(process_list_ignores_last_group 2).1 "3\n\n8\n".toList "3\n\n1\n2".toList
      ["3".toList] ["8".toList] ["1".toList, "2".toList]
      (by decide) (by decide) (by decide) (by decide) (by decide) (by decide),
    (process_list_ignores_last_group 2).2 "5\n6\n".toList (by decide)⟩

/-! ## Further facts about the tracker -/

/-- C16 as stated fails: with `N = 2` and the non-negative candidates `2147483647` and `1`
both are retained, the two largest add up to `2147483648`, and `Sum`, an `int`, returns
`-2147483648`. -/
theorem Sum_ties_counted_counterexample :
    (1 ≤ 2 ∧ 2 ≤ [2147483647, 1].length ∧ (∀ c ∈ [2147483647, 1], (0 : Int) ≤ c)) ∧
    (TopN.construct 2).map (fun t => (TopN.considerAll t [2147483647, 1]).Sum) =
      some (-2147483648) ∧
    ((sortDesc [2147483647, 1]).take 2).sum = 2147483648 := by
  decide

/-- C16 as amended: for every `N ≥ 1` and every list of at least `N` non-negative
candidates, equal values included, a fresh zero-neutral tracker that has considered them
all retains the `N` largest candidates counted with multiplicity, and `Sum` is their sum
reduced into the `int` range: exactly their sum when it is at most `INT_MAX`. -/
theorem Sum_ties_counted (N : Nat) (cs : List Int) (hN : 1 ≤ N) (hlen : N ≤ cs.length)
    (hcs : ∀ c ∈ cs, 0 ≤ c) :
    ∃ t0, TopN.construct N = some t0 ∧
      (TopN.considerAll t0 cs).items = (sortDesc cs).take N ∧
      (TopN.considerAll t0 cs).Sum = wrapInt ((sortDesc cs).take N).sum ∧
      (((sortDesc cs).take N).sum ≤ INT_MAX →
        (TopN.considerAll t0 cs).Sum = ((sortDesc cs).take N).sum) := by
  have hl : (sortDesc cs).length = cs.length := List.length_insertionSort _ cs
  have hsum : (TopN.considerAll (TopN.init N 0) cs).Sum =
      wrapInt ((sortDesc cs).take N).sum := by
    rw [Sum_considerAll_init N 0 cs hN, zero_add, sum_items_considerAll_nonneg N cs hcs]
  have h0 : 0 ≤ ((sortDesc cs).take N).sum :=
    List.sum_nonneg (fun x hx =>
      hcs x ((perm_sortDesc _).mem_iff.mp (List.mem_of_mem_take hx)))
  refine ⟨TopN.init N 0, construct_eq_some N 0 hN, ?_, hsum, ?_⟩
  · rw [considerAll_init_items, sortDesc_append_replicate_zero cs N hcs,
      List.take_append_of_le_length (by omega)]
  · intro hmax
    rw [hsum, wrapInt_eq_self (by unfold INT_MIN; omega) hmax]

/-- C16 as amended, at `N = 2` and the candidates `5, 3, 5`: the sum is `10`. -/
theorem Sum_ties_counted_witness :
    (TopN.construct 2).map (fun t => (TopN.considerAll t [5, 3, 5]).Sum) = some 10 ∧
    ∃ t0, TopN.construct 2 = some t0 ∧
      (TopN.considerAll t0 [5, 3, 5]).items = (sortDesc [5, 3, 5]).take 2 ∧
      (TopN.considerAll t0 [5, 3, 5]).Sum = wrapInt ((sortDesc [5, 3, 5]).take 2).sum ∧
      (((sortDesc [5, 3, 5]).take 2).sum ≤ INT_MAX →
        (TopN.considerAll t0 [5, 3, 5]).Sum = ((sortDesc [5, 3, 5]).take 2).sum) :=
  ⟨by decide, Sum_ties_counted 2 [5, 3, 5] (by decide) (by decide) (by decide)⟩

theorem considerItems_ge (c z : Int) :
    ∀ l : List Int, (∀ x ∈ l, z ≤ x) → ∀ x ∈ considerItems c l, z ≤ x
  | [], _, x, hx => by simp [considerItems_nil] at hx
  | y :: rest, h, x, hx => by
    rw [considerItems_cons] at hx
    have hy : z ≤ y := h y (List.mem_cons_self _ _)
    by_cases hyc : y < c
    · simp only [hyc, if_true, List.mem_cons] at hx
      rcases hx with rfl | hx
      · omega
      · exact h x (List.dropLast_subset _ hx)
    · simp only [hyc, if_false, List.mem_cons] at hx
      rcases hx with rfl | hx
      · exact hy
      · exact considerItems_ge c z rest (fun w hw => h w (List.mem_cons_of_mem _ hw)) x hx

theorem considerAll_ge (z : Int) :
    ∀ (cs : List Int) (t : TopN), (∀ x ∈ t.items, z ≤ x) →
      ∀ x ∈ (TopN.considerAll t cs).items, z ≤ x
  | [], _, h => h
  | c :: cs, t, h => by
    rw [considerAll_cons]
    apply considerAll_ge z cs
    rw [Consider_items]
    exact considerItems_ge c z _ h

theorem sum_dropLast_add_getLast (l : List Int) (m : Int) (h : l.getLast? = some m) :
    l.dropLast.sum + m = l.sum := by
  have := congrArg List.sum (List.dropLast_append_getLast? m h)
  simpa using this

/-- An insertion into a descending list raises the sum of the list. -/
theorem sum_lt_sum_considerItems (c : Int) :
    ∀ l : List Int, l.Sorted (fun a b => a ≥ b) → (∃ x ∈ l, x < c) →
      l.sum < (considerItems c l).sum
  | [], _, h => by
    obtain ⟨x, hx, _⟩ := h
    simp at hx
  | y :: rest, hs, h => by
    rw [considerItems_cons]
    by_cases hyc : y < c
    · simp only [hyc, if_true, List.sum_cons]
      obtain ⟨m, hm⟩ : ∃ m, (y :: rest).getLast? = some m := by
        cases hl : (y :: rest).getLast? with
        | none => simp at hl
        | some m => exact ⟨m, rfl⟩
      have hsum := sum_dropLast_add_getLast (y :: rest) m hm
      have hmy : m ≤ y := getLast?_le_of_sorted _ m hs hm y (List.mem_cons_self _ _)
      rw [List.sum_cons] at hsum
      omega
    · simp only [hyc, if_false, List.sum_cons]
      have hrest : ∃ x ∈ rest, x < c := by
        obtain ⟨x, hx, hxc⟩ := h
        rcases List.mem_cons.mp hx with rfl | hx
        · exact absurd hxc hyc
        · exact ⟨x, hx, hxc⟩
      have := sum_lt_sum_considerItems c rest hs.of_cons hrest
      omega

/-- C17 as stated fails in its last part: the tracker of capacity `2` and neutral value
`0` that has considered `2147483647` and `1` retains both, and `Sum`, an `int`, returns
`-2147483648`. -/
theorem Sum_negative_counterexample :
    (TopN.construct 2 0).map (fun t => (TopN.considerAll t [2147483647, 1]).items) =
      some [2147483647, 1] ∧
    (TopN.construct 2 0).map (fun t => (TopN.considerAll t [2147483647, 1]).Sum) =
      some (-2147483648) ∧
    ¬ ((0 : Int) ≤ -2147483648) := by
  decide

/-- C17 as amended: for every capacity `N ≥ 1`, neutral value `z` and sequence of
`Consider` calls, all `N` retained slots are at least `z`; with `z = 0` no retained slot
is negative, `Consider` of a negative or zero candidate leaves the tracker unchanged, the
slots sum to a non-negative number, and `Sum`, that number reduced into the `int` range,
is not negative when the number is at most `INT_MAX`. -/
theorem items_ge_neutral (N : Nat) (z : Int) (cs : List Int) (hN : 1 ≤ N) :
    ∃ t0, TopN.construct N z = some t0 ∧
      (TopN.considerAll t0 cs).items.length = N ∧
      (∀ x ∈ (TopN.considerAll t0 cs).items, z ≤ x) ∧
      (z = 0 →
        (∀ c : Int, c ≤ 0 →
          (TopN.considerAll t0 cs).Consider c = TopN.considerAll t0 cs) ∧
        0 ≤ (TopN.considerAll t0 cs).items.sum ∧
        (TopN.considerAll t0 cs).Sum = wrapInt (TopN.considerAll t0 cs).items.sum ∧
        ((TopN.considerAll t0 cs).items.sum ≤ INT_MAX →
          0 ≤ (TopN.considerAll t0 cs).Sum)) := by
  have hge : ∀ x ∈ (TopN.considerAll (TopN.init N z) cs).items, z ≤ x := by
    apply considerAll_ge z cs
    intro x hx
    rw [List.eq_of_mem_replicate hx]
  refine ⟨TopN.init N z, construct_eq_some N z hN, considerAll_init_length N z cs, hge, ?_⟩
  intro hz
  subst hz
  have hnn : 0 ≤ (TopN.considerAll (TopN.init N 0) cs).items.sum := List.sum_nonneg hge
  have hsum : (TopN.considerAll (TopN.init N 0) cs).Sum =
      wrapInt (TopN.considerAll (TopN.init N 0) cs).items.sum := by
    rw [Sum_considerAll_init N 0 cs hN, zero_add]
  refine ⟨?_, hnn, hsum, ?_⟩
  · intro c hc
    rw [Consider_eq_self_iff]
    exact fun x hx => le_trans hc (hge x hx)
  · intro hmax
    rw [hsum, wrapInt_eq_self (by unfold INT_MIN; omega) hmax]
    exact hnn

/-- C17 as amended, at capacity `2`, neutral value `0` and the candidates `5, -3, 0, 7`. -/
theorem items_ge_neutral_witness :
    (TopN.construct 2 0).map (fun t => (TopN.considerAll t [5, -3, 0, 7]).items) =
      some [7, 5] ∧
    ∃ t0, TopN.construct 2 0 = some t0 ∧
      (TopN.considerAll t0 [5, -3, 0, 7]).items.length = 2 ∧
      (∀ x ∈ (TopN.considerAll t0 [5, -3, 0, 7]).items, 0 ≤ x) ∧
      ((0 : Int) = 0 →
        (∀ c : Int, c ≤ 0 →
          (TopN.considerAll t0 [5, -3, 0, 7]).Consider c =
            TopN.considerAll t0 [5, -3, 0, 7]) ∧
        0 ≤ (TopN.considerAll t0 [5, -3, 0, 7]).items.sum ∧
        (TopN.considerAll t0 [5, -3, 0, 7]).Sum =
          wrapInt (TopN.considerAll t0 [5, -3, 0, 7]).items.sum ∧
        ((TopN.considerAll t0 [5, -3, 0, 7]).items.sum ≤ INT_MAX →
          0 ≤ (TopN.considerAll t0 [5, -3, 0, 7]).Sum)) :=
  ⟨by decide, items_ge_neutral 2 0 [5, -3, 0, 7] (by decide)⟩

/-- C18 as stated fails: the tracker of capacity `2` and neutral value `0` that has
considered `2147483647` retains `2147483647, 0` and has `Sum` `2147483647`; `Consider 1`
changes it to `2147483647, 1`, and `Sum`, an `int`, falls to `-2147483648`. -/
theorem Sum_monotone_counterexample :
    TopN.construct 2 0 = some { items := [0, 0], default_item := 0 } ∧
    TopN.Consider { items := [0, 0], default_item := 0 } 2147483647 =
      { items := [2147483647, 0], default_item := 0 } ∧
    TopN.Sum { items := [2147483647, 0], default_item := 0 } = 2147483647 ∧
    TopN.Consider { items := [2147483647, 0], default_item := 0 } 1 =
      { items := [2147483647, 1], default_item := 0 } ∧
    TopN.Sum { items := [2147483647, 1], default_item := 0 } = -2147483648 ∧
    ¬ (TopN.Sum { items := [2147483647, 0], default_item := 0 } ≤
      (TopN.Consider { items := [2147483647, 0], default_item := 0 } 1).Sum) := by
  decide

/-- C18 as amended: in every reachable state and for every candidate `c`, the sum of the
retained slots after `Consider c` is at least the sum before it, and strictly greater
exactly when `Consider c` changed the tracker; the same holds of `Sum` whenever the
neutral value plus the slots stays within the `int` range before and after the call. -/
theorem Sum_monotone (t : TopN) (c : Int) (ht : t.Reachable) :
    (t.items.sum ≤ (t.Consider c).items.sum ∧
      (t.items.sum < (t.Consider c).items.sum ↔ t.Consider c ≠ t)) ∧
    (INT_MIN ≤ t.default_item + t.items.sum →
      t.default_item + (t.Consider c).items.sum ≤ INT_MAX →
      t.Sum ≤ (t.Consider c).Sum ∧ (t.Sum < (t.Consider c).Sum ↔ t.Consider c ≠ t)) := by
  have hexact : t.items.sum ≤ (t.Consider c).items.sum ∧
      (t.items.sum < (t.Consider c).items.sum ↔ t.Consider c ≠ t) := by
    by_cases hsame : t.Consider c = t
    · rw [hsame]
      simp
    · have hex : ∃ x ∈ t.items, x < c := by
        rw [Consider_eq_self_iff] at hsame
        push_neg at hsame
        exact hsame
      have hlt : t.items.sum < (t.Consider c).items.sum := by
        rw [Consider_items]
        exact sum_lt_sum_considerItems c t.items (reachable_sorted ht) hex
      exact ⟨le_of_lt hlt, fun _ => hsame, fun _ => hlt⟩
  refine ⟨hexact, ?_⟩
  intro hlo hhi
  have h1 : t.Sum = t.default_item + t.items.sum := by
    rw [Sum_eq_wrapInt t (reachable_ne_nil ht), wrapInt_eq_self hlo (by omega)]
  have h2 : (t.Consider c).Sum = t.default_item + (t.Consider c).items.sum := by
    rw [Sum_eq_wrapInt _ (reachable_ne_nil (TopN.Reachable.consider c ht)),
      Consider_default_item, wrapInt_eq_self (by omega) hhi]
  rw [h1, h2]
  obtain ⟨hle, hiff⟩ := hexact
  refine ⟨by omega, ?_⟩
  rw [← hiff]
  constructor <;> intro h <;> omega

/-- C18 as amended, at the tracker of capacity `2` that has considered `5` and `3`,
offered `4`: `Sum` rises from `8` to `9`. -/
theorem Sum_monotone_witness :
    TopN.Sum { items := [5, 3], default_item := 0 } = 8 ∧
    (TopN.Consider { items := [5, 3], default_item := 0 } 4).Sum = 9 ∧
    (TopN.Sum { items := [5, 3], default_item := 0 } ≤
        (TopN.Consider { items := [5, 3], default_item := 0 } 4).Sum ∧
      (TopN.Sum { items := [5, 3], default_item := 0 } <
          (TopN.Consider { items := [5, 3], default_item := 0 } 4).Sum ↔
        TopN.Consider { items := [5, 3], default_item := 0 } 4 ≠
          { items := [5, 3], default_item := 0 })) :=
  ⟨by decide, by decide,
    (Sum_monotone { items := [5, 3], default_item := 0 } 4
      (TopN.Reachable.consider 3
        (TopN.Reachable.consider 5 (@TopN.Reachable.construct 2 0 _ rfl)))).2
      (by decide) (by decide)⟩

end Day01
